import Mathlib

/-!
# Partial-reconfiguration handshake: producer kernel and host controller

Shallow embedding of

* `src/slot0/pr_src.cpp`, kernel `pr_src` (the producer on slot 0), and
* `src/main.cpp`, the reconfiguration loop and the result check of `main`.

Pipes are modelled by what is read from and written to them. A blocking read
of `pr_ack_pipe` consumes the head of the list of acknowledgments still to
come; on an empty list the read never returns and the kernel stops there.
`long` is a 64-bit signed integer: sums are reduced by `wrapLong`. `int`
values (module and request ids) are only copied and compared, never computed.

The kernels `pr_request_kernel` and `pr_ack_kernel` only move one value
between a pipe and the host: what `main` reads as `request_id` is a value
`pr_src` wrote to `pr_request_pipe`, and what `pr_src` reads from
`pr_ack_pipe` is a value `main` passed to `pr_ack_kernel`. The sink kernels
and their stop kernels are loaded from libraries outside these two files; the
host model records the calls made to them and takes the checkpoint found in
`work_status[0]` as an input of each pass. Two facts about SYCL events are
assumed: `ev_sink.wait()` returns with the event complete, and a kernel just
submitted is eventually observed running, while a complete event never is.
-/

namespace PrSrc

/-- Smallest value of a 64-bit `long`. -/
def LONG_MIN : Int := -9223372036854775808

/-- Largest value of a 64-bit `long`. -/
def LONG_MAX : Int := 9223372036854775807

/-- Result of a 64-bit signed addition: the mathematical sum reduced to the
two's complement range. -/
def wrapLong (x : Int) : Int :=
  (x + 9223372036854775808) % 18446744073709551616 - 9223372036854775808

/-- Local variables of the kernel that live across loop iterations
(`pr_src.cpp` lines 78-80). `writtenBy` is a ghost field: the variant whose
transform made the last assignment to `writedata` (`none` while `writedata`
still holds its initial 0). -/
structure State where
  writedata : Int
  current_module : Int
  writtenBy : Option Int
  deriving DecidableEq

/-- Record of one iteration of the `for` loop (lines 84-110).
`request` is the value written to `pr_request_pipe`, `ack` the value read from
`pr_ack_pipe`, `transformed` the variant whose assignment to `writedata` ran
in this iteration, `forwarded` the value written to `write_iopipe` (`none`
when the iteration never got past the blocking read), `writtenBy` the ghost
field of the state at the moment of forwarding. -/
structure Iter where
  index : Nat
  readdata : Int
  moduleBefore : Int
  request : Option Int
  ack : Option Int
  transformed : Option Int
  moduleAfter : Int
  forwarded : Option Int
  writtenBy : Option Int
  deriving DecidableEq

/-- Second half of an arm and line 107: with `cm` the module after the
optional handshake, `if (current_module == v) writedata = readdata + d;`
then `write_iopipe::write(writedata)`. -/
def transformAndForward (v d : Int) (i : Nat) (readdata : Int) (st : State)
    (req ack : Option Int) (cm : Int) (acks : List Int) :
    Iter × Option (State × List Int) :=
  let st' : State :=
    if cm = v then
      { writedata := wrapLong (readdata + d), current_module := cm, writtenBy := some v }
    else
      { st with current_module := cm }
  ({ index := i, readdata := readdata, moduleBefore := st.current_module,
     request := req, ack := ack,
     transformed := if cm = v then some v else none,
     moduleAfter := cm, forwarded := some st'.writedata, writtenBy := st'.writtenBy },
   some (st', acks))

/-- One arm of `if (readdata < threshold)`: lines 89-95 for `v = 1, d = 1`,
lines 98-104 for `v = 2, d = 2`, each followed by line 107.
`if (current_module != v) { pr_request_pipe::write(v); current_module =
pr_ack_pipe::read(); }`. With no acknowledgment to come the read blocks for
ever: the request has been written, nothing is forwarded. -/
def arm (v d : Int) (i : Nat) (readdata : Int) (st : State) (acks : List Int) :
    Iter × Option (State × List Int) :=
  if st.current_module ≠ v then
    match acks with
    | [] =>
      ({ index := i, readdata := readdata, moduleBefore := st.current_module,
         request := some v, ack := none, transformed := none,
         moduleAfter := st.current_module, forwarded := none,
         writtenBy := st.writtenBy }, none)
    | w :: rest => transformAndForward v d i readdata st (some v) (some w) w rest
  else
    transformAndForward v d i readdata st none none st.current_module acks

/-- Body of the `for` loop, lines 86-107. -/
def loopBody (threshold : Int) (i : Nat) (readdata : Int) (st : State) (acks : List Int) :
    Iter × Option (State × List Int) :=
  if readdata < threshold then arm 1 1 i readdata st acks
  else arm 2 2 i readdata st acks

/-- The `for` loop of lines 84-110 over the elements still to read, from
index `i`. The Boolean says whether the loop was left (`i >= num_items`). -/
def loop (threshold : Int) : Nat → List Int → State → List Int → List Iter × Bool
  | _, [], _, _ => ([], true)
  | i, x :: xs, st, acks =>
    match loopBody threshold i x st acks with
    | (it, none) => ([it], false)
    | (it, some (st', acks')) =>
      (it :: (loop threshold (i + 1) xs st' acks').1, (loop threshold (i + 1) xs st' acks').2)

/-- An execution of the kernel: the iterations it ran and whether it reached
lines 113-115, where it writes the request 0. -/
structure Run where
  iters : List Iter
  finished : Bool
  deriving DecidableEq

/-- Kernel `pr_src` (lines 78-115) on the first `num_items` elements `a` of
the buffer. -/
def pr_src (a : List Int) (threshold : Int) (initial_module : Int) (acks : List Int) : Run :=
  let r := loop threshold 0 a
    { writedata := 0, current_module := initial_module, writtenBy := none } acks
  { iters := r.1, finished := r.2 }

/-- Pipe operations of the kernel. -/
inductive Event where
  | request (v : Int)
  | ackRead (v : Int)
  | forward (i : Nat) (value : Int)
  deriving DecidableEq

/-- Pipe operations of one iteration, in program order. -/
def Iter.events (it : Iter) : List Event :=
  (match it.request with | some v => [Event.request v] | none => []) ++
  (match it.ack with | some w => [Event.ackRead w] | none => []) ++
  (match it.forwarded with | some x => [Event.forward it.index x] | none => [])

/-- Pipe operations of a list of iterations. -/
def eventsOf : List Iter → List Event
  | [] => []
  | it :: its => it.events ++ eventsOf its

/-- All pipe operations of a run, in program order; the closing
`pr_request_pipe::write(0)` of line 114 comes last. -/
def Run.events (r : Run) : List Event :=
  eventsOf r.iters ++ (if r.finished then [Event.request 0] else [])

/-- Values written to `pr_request_pipe` inside the loop. -/
def elementRequests (its : List Iter) : List Int :=
  its.filterMap (fun it => it.request)

/-- All values written to `pr_request_pipe`. -/
def Run.requests (r : Run) : List Int :=
  elementRequests r.iters ++ (if r.finished then [0] else [])

/-- Values written to `write_iopipe`. -/
def Run.forwardedValues (r : Run) : List Int :=
  r.iters.filterMap (fun it => it.forwarded)

/-- Index carried by a forward event. -/
def Event.forwardIndex : Event → Option Nat
  | Event.forward i _ => some i
  | _ => none

/-- Index and value carried by a forward event. -/
def Event.forwardPair : Event → Option (Nat × Int)
  | Event.forward i y => some (i, y)
  | _ => none

/-- The writes to `write_iopipe` among a list of pipe operations, in order,
each with the index it was made for. -/
def forwardEvents (evs : List Event) : List (Nat × Int) :=
  evs.filterMap Event.forwardPair

/-- Variant an element needs: 1 below the threshold, 2 otherwise (the test of
line 88). -/
def required (threshold readdata : Int) : Int :=
  if readdata < threshold then 1 else 2

/-- Module the kernel holds after the given iterations: the last
acknowledgment read, the initial module when none was read. -/
def lastAck (initial_module : Int) (its : List Iter) : Int :=
  ((its.filterMap (fun it => it.ack)).getLast?).getD initial_module

/-- Every request written inside the loop is answered with the variant that
was requested. -/
def Acknowledged (r : Run) : Prop :=
  ∀ it ∈ r.iters, it.request ≠ none → it.ack = it.request

end PrSrc

namespace Host

/-- Execution status of a SYCL event as far as `main` looks at it. -/
inductive Status where
  | submitted
  | running
  | complete
  deriving DecidableEq

/-- The event `ev_sink`: the sink kernel it was returned for (1 for
`pr_sink1`, 2 for `pr_sink2`), the resume offset that kernel was given, and
its status. -/
structure SinkEvent where
  variant : Int
  resume : Nat
  status : Status
  deriving DecidableEq

/-- Host variables of the reconfiguration loop of `main`. -/
structure Ctrl where
  current_module : Int
  ev_sink : SinkEvent
  deriving DecidableEq

/-- What the host does to the two slots, in program order. -/
inductive Action where
  | stop (v : Int)
  | waitSink
  | readCheckpoint (c : Nat)
  | startSink (v : Int) (resume : Nat)
  | waitRunning
  | resetRequestMonitor
  | ack (v : Int)
  deriving DecidableEq

/-- Outcome of one pass through the body of the `while` loop. `hung` says that
the pass never ends: the polling loop of lines 206-209 sees a status that can
no longer become `running`. -/
structure StepResult where
  state : Ctrl
  actions : List Action
  hung : Bool
  deriving DecidableEq

/-- State after lines 119 and 161: `current_module = 1`, `pr_sink1` submitted
to slot 1 with resume offset 0. -/
def init : Ctrl :=
  { current_module := 1, ev_sink := { variant := 1, resume := 0, status := Status.submitted } }

/-- Lines 179-186: the stop request goes to the kernel `current_module` names. -/
def stopActive (current_module : Int) : List Action :=
  if current_module = 1 then [Action.stop 1]
  else if current_module = 2 then [Action.stop 2]
  else []

/-- Lines 196-203: submit the requested sink with the resume address; any
other request id leaves `ev_sink` as it is. -/
def reconfigure (request_id : Int) (resume_addr : Nat) (ev : SinkEvent) :
    SinkEvent × List Action :=
  if request_id = 1 then
    ({ variant := 1, resume := resume_addr, status := Status.submitted },
     [Action.startSink 1 resume_addr])
  else if request_id = 2 then
    ({ variant := 2, resume := resume_addr, status := Status.submitted },
     [Action.startSink 2 resume_addr])
  else (ev, [])

/-- Lines 206-209: poll until the event is running. A submitted kernel gets
to run; an event that is complete stays complete, the loop then never ends. -/
def pollRunning (ev : SinkEvent) : Option SinkEvent :=
  match ev.status with
  | Status.submitted => some { ev with status := Status.running }
  | Status.running => some ev
  | Status.complete => none

/-- Lines 174-222: one pass of the loop body with `request_id` read from the
request buffer and `work_status0` the content of `work_status[0]` when it is
read at line 194. -/
def step (st : Ctrl) (request_id : Int) (work_status0 : Nat) : StepResult :=
  if request_id ≠ 0 then
    let stops := stopActive st.current_module
    let waited : SinkEvent := { st.ev_sink with status := Status.complete }
    let resume_addr := work_status0
    let re := reconfigure request_id resume_addr waited
    match pollRunning re.1 with
    | none =>
      { state := { st with ev_sink := re.1 },
        actions := stops ++ [Action.waitSink, Action.readCheckpoint resume_addr] ++ re.2 ++
          [Action.waitRunning],
        hung := true }
    | some ev =>
      { state := { current_module := request_id, ev_sink := ev },
        actions := stops ++ [Action.waitSink, Action.readCheckpoint resume_addr] ++ re.2 ++
          [Action.waitRunning, Action.resetRequestMonitor, Action.ack request_id],
        hung := false }
  else
    { state := st, actions := [], hung := false }

/-- The `while` loop of lines 168-223 over the observations it makes: each is
the request id read at line 174 with the checkpoint in `work_status[0]`. -/
def runController (st : Ctrl) : List (Int × Nat) → StepResult
  | [] => { state := st, actions := [], hung := false }
  | (request_id, c) :: rest =>
    let r := step st request_id c
    if r.hung then r
    else
      let r' := runController r.state rest
      { state := r'.state, actions := r.actions ++ r'.actions, hung := r'.hung }

/-- The value the result check of lines 244-249 expects at an index holding
`x`. -/
def expected_value (threshold x : Int) : Int :=
  if x < threshold then PrSrc.wrapLong (x + 1) else PrSrc.wrapLong (x + 3)

/-- Line 110. -/
def N : Nat := 10

/-- Line 122. -/
def threshold : Int := 0

/-- The input filled in at lines 123-131. -/
def src_mem : List Int :=
  (List.range N).map (fun i => if i % 2 = 0 then 1 else -1)

/-- The producer as launched at line 164. -/
def fixtureRun (acks : List Int) : PrSrc.Run :=
  PrSrc.pr_src src_mem threshold init.current_module acks

/-- Life cycle of the consumer slot as the specification gives it. -/
inductive Slot where
  | idle
  | running (v : Int)
  | stopping (v : Int)
  | stopped (v : Int)
  deriving DecidableEq

/-- One action seen by the slot. `none` is a violation: a kernel started
while another is running or stopping, a stop sent to a variant that is not
the one running, a wait on a kernel that was not told to stop. -/
def Slot.next : Slot → Action → Option Slot
  | Slot.idle, Action.startSink v _ => some (Slot.running v)
  | Slot.stopped _, Action.startSink v _ => some (Slot.running v)
  | _, Action.startSink _ _ => none
  | Slot.running w, Action.stop v => if v = w then some (Slot.stopping w) else none
  | _, Action.stop _ => none
  | Slot.stopping w, Action.waitSink => some (Slot.stopped w)
  | _, Action.waitSink => none
  | s, _ => some s

/-- Run the slot over a list of actions. -/
def Slot.run : Slot → List Action → Option Slot
  | s, [] => some s
  | s, a :: rest =>
    match s.next a with
    | none => none
    | some s' => Slot.run s' rest

/-- Variant of the last kernel start in a list of actions, `cur` when there
is none. -/
def installedAfter : Option Int → List Action → Option Int
  | cur, [] => cur
  | _, Action.startSink v _ :: rest => installedAfter (some v) rest
  | cur, _ :: rest => installedAfter cur rest

/-- Variant most recently installed on slot 1 by a list of actions. -/
def lastInstalled (l : List Action) : Option Int :=
  installedAfter none l

/-- Idempotence as the specification words it: a non-zero request equal to
`current_module` is acknowledged with no stop, no kernel start and no change
of state. -/
def IdempotenceClaim (st : Ctrl) (r : Int) (c : Nat) : Prop :=
  r ≠ 0 → r = st.current_module →
    Action.ack r ∈ (step st r c).actions ∧
    (∀ w, Action.stop w ∉ (step st r c).actions) ∧
    (∀ w o, Action.startSink w o ∉ (step st r c).actions) ∧
    (step st r c).state = st

/-- Rejection of an unknown variant as the specification words it: no stop
is issued, nothing is installed, `current_module` stays. -/
def UnknownVariantClaim (st : Ctrl) (r : Int) (c : Nat) : Prop :=
  (st.current_module = 1 ∨ st.current_module = 2) → r ≠ 0 → r ≠ 1 → r ≠ 2 →
    (∀ w, Action.stop w ∉ (step st r c).actions) ∧
    (∀ w o, Action.startSink w o ∉ (step st r c).actions) ∧
    (step st r c).state.current_module = st.current_module

/-- The fixture as the specification words it: the run starts on variant 1
and no request for variant 2 is ever written. -/
def FixtureClaim (acks : List Int) : Prop :=
  PrSrc.Acknowledged (fixtureRun acks) →
    init.current_module = 1 ∧ 2 ∉ (fixtureRun acks).requests

/-- Per-index value as the specification words it: what the producer forwards
is what the host check expects. -/
def PerIndexClaim (a : List Int) (th m : Int) (acks : List Int) : Prop :=
  PrSrc.Acknowledged (PrSrc.pr_src a th m acks) →
    (PrSrc.pr_src a th m acks).forwardedValues = a.map (expected_value th)

end Host

namespace PrSrc

/-- Value held in `writedata` after the given iterations: the last value
forwarded, the initial value when none was. -/
def lastForwarded (initial : Int) (its : List Iter) : Int :=
  ((its.filterMap (fun it => it.forwarded)).getLast?).getD initial

/-- An iteration on element `x` at index `i`, entered with module `cur` and
with `wd` in `writedata`, described by its pipe traffic alone. -/
def IterSpec (th : Int) (i : Nat) (x cur wd : Int) (it : Iter) : Prop :=
  it.index = i ∧ it.readdata = x ∧ it.moduleBefore = cur ∧
  it.request = (if cur ≠ required th x then some (required th x) else none) ∧
  (cur = required th x → it.ack = none) ∧
  it.moduleAfter = (it.ack).getD cur ∧
  (it.forwarded = none ↔ (cur ≠ required th x ∧ it.ack = none)) ∧
  it.transformed =
    (if it.forwarded ≠ none ∧ it.moduleAfter = required th x then some (required th x)
     else none) ∧
  (∀ y, it.forwarded = some y →
    y = if it.moduleAfter = required th x then wrapLong (x + required th x) else wd)

end PrSrc

namespace PrSrc

/-- Requests a producer writes inside the loop when each is answered with the
variant requested: entered with module `m`, an element asks for its variant
exactly when that differs from the module, and the module is that variant
afterwards. -/
def expectedRequests (th : Int) : Int → List Int → List Int
  | _, [] => []
  | m, x :: xs =>
    (if m ≠ required th x then [required th x] else []) ++
      expectedRequests th (required th x) xs

/-- Ghost invariant of the kernel state when acknowledgments are 1 or 2: a
value assigned by a transform was assigned by the one the module names. -/
def Provenance (st : State) : Prop :=
  ∀ p, st.writtenBy = some p → (p = 1 ∨ p = 2) ∧ st.current_module = p

/-- Acknowledgment causality as the specification words it: a forwarded value
that a transform of variant `v` computed is forwarded while the module (the
last acknowledgment, or the initial module) is `v`. -/
def AckCausality (r : Run) : Prop :=
  ∀ it ∈ r.iters, it.forwarded ≠ none → ∀ v, it.writtenBy = some v → it.moduleAfter = v

/-- A stale acknowledgment is fatal, as the specification words it: once a
request for `v` is answered by another id, nothing is forwarded for that
element or any later one. -/
def StaleAckFatal (r : Run) : Prop :=
  ∀ (k : Nat) (it : Iter) (v w : Int), r.iters[k]? = some it → it.request = some v →
    it.ack = some w → w ≠ v →
    ∀ (j : Nat) (it' : Iter), k ≤ j → r.iters[j]? = some it' → it'.forwarded = none

/-- Second iteration of `pr_src` on -5, 5 (threshold 0, initial module 1) when
the request for variant 2 is answered by 2. -/
def servedIter : Iter :=
  { index := 1, readdata := 5, moduleBefore := 1, request := some 2, ack := some 2,
    transformed := some 2, moduleAfter := 2, forwarded := some 7, writtenBy := some 2 }

/-- Second iteration of `pr_src` on -5, 5 (threshold 0, initial module 1) when
the request for variant 2 is answered by 3. -/
def staleIter : Iter :=
  { index := 1, readdata := 5, moduleBefore := 1, request := some 2, ack := some 3,
    transformed := none, moduleAfter := 3, forwarded := some (-4), writtenBy := some 1 }

end PrSrc

namespace PrSrc

/-- What the ghost field stands for: when it names a variant, `writedata` is
that variant's transform of one of the elements `seen` so far, an element
that required the variant; when it names none, `writedata` is still 0. -/
def Sound (th : Int) (seen : List Int) (st : State) : Prop :=
  (∀ v, st.writtenBy = some v →
    ∃ x ∈ seen, required th x = v ∧ st.writedata = wrapLong (x + v)) ∧
  (st.writtenBy = none → st.writedata = 0)

end PrSrc

namespace PrSrc

/-- Every read of `pr_ack_pipe` that the elements `xs` call for, entered with
module `m`, finds a value in `acks`: an element whose variant is the module
reads nothing, any other takes the next acknowledgment as the new module.
Computed from the inputs alone, without running the kernel. -/
def Served (th : Int) : Int → List Int → List Int → Bool
  | _, [], _ => true
  | m, x :: xs, acks =>
    if m = required th x then Served th m xs acks
    else
      match acks with
      | [] => false
      | w :: rest => Served th w xs rest

end PrSrc

/-! ## Lemmas on the producer loop and the controller step -/

namespace PrSrc

theorem loop_cons_blocked (th : Int) (i : Nat) (x : Int) (xs : List Int) (st : State)
    (acks : List Int) (h : (loopBody th i x st acks).2 = none) :
    loop th i (x :: xs) st acks = ([(loopBody th i x st acks).1], false) := by
  rcases hb : loopBody th i x st acks with ⟨it, o⟩
  rw [hb] at h
  simp only at h
  subst h
  simp [loop, hb]

theorem loop_cons_some (th : Int) (i : Nat) (x : Int) (xs : List Int) (st : State)
    (acks : List Int) (st' : State) (acks' : List Int)
    (h : (loopBody th i x st acks).2 = some (st', acks')) :
    loop th i (x :: xs) st acks =
      ((loopBody th i x st acks).1 :: (loop th (i + 1) xs st' acks').1,
        (loop th (i + 1) xs st' acks').2) := by
  rcases hb : loopBody th i x st acks with ⟨it, o⟩
  rw [hb] at h
  simp only at h
  subst h
  simp [loop, hb]

/-- What the record of one arm holds. -/
theorem arm_iter (v : Int) (i : Nat) (x : Int) (st : State) (acks : List Int) :
    (arm v v i x st acks).1.index = i ∧
    (arm v v i x st acks).1.readdata = x ∧
    (arm v v i x st acks).1.moduleBefore = st.current_module ∧
    (arm v v i x st acks).1.request = (if st.current_module ≠ v then some v else none) ∧
    (st.current_module = v → (arm v v i x st acks).1.ack = none) ∧
    (arm v v i x st acks).1.moduleAfter =
      ((arm v v i x st acks).1.ack).getD st.current_module ∧
    ((arm v v i x st acks).1.forwarded = none ↔
      (st.current_module ≠ v ∧ (arm v v i x st acks).1.ack = none)) ∧
    (arm v v i x st acks).1.transformed =
      (if (arm v v i x st acks).1.forwarded ≠ none ∧ (arm v v i x st acks).1.moduleAfter = v
       then some v else none) ∧
    (∀ y, (arm v v i x st acks).1.forwarded = some y →
      y = if (arm v v i x st acks).1.moduleAfter = v then wrapLong (x + v)
          else st.writedata) := by
  unfold arm transformAndForward
  by_cases h : st.current_module = v
  · simp [h]
  · cases acks with
    | nil => simp [h]
    | cons w rest =>
      by_cases hw : w = v
      · simp [h, hw]
      · simp only [h, hw, ne_eq, not_false_eq_true, if_true, if_false]
        simp

/-- What the record of one iteration holds, read off the loop body. -/
theorem loopBody_iter (th : Int) (i : Nat) (x : Int) (st : State) (acks : List Int) :
    IterSpec th i x st.current_module st.writedata (loopBody th i x st acks).1 := by
  unfold IterSpec loopBody required
  by_cases hx : x < th
  · simp only [hx, if_true]
    exact arm_iter 1 i x st acks
  · simp only [hx, if_false]
    exact arm_iter 2 i x st acks

/-- The state an arm hands on agrees with its record. -/
theorem arm_next (v d : Int) (i : Nat) (x : Int) (st st' : State) (acks acks' : List Int)
    (h : (arm v d i x st acks).2 = some (st', acks')) :
    st'.current_module = (arm v d i x st acks).1.moduleAfter ∧
    (arm v d i x st acks).1.forwarded = some st'.writedata ∧
    st'.writtenBy = (arm v d i x st acks).1.writtenBy ∧
    acks.length ≤ acks'.length + 1 := by
  unfold arm transformAndForward at h ⊢
  by_cases hc : st.current_module = v
  · simp only [hc, ne_eq, not_true_eq_false, if_false, if_true, Option.some.injEq,
      Prod.mk.injEq] at h ⊢
    obtain ⟨rfl, rfl⟩ := h
    simp
  · cases acks with
    | nil => simp [hc] at h
    | cons w rest =>
      simp only [hc, ne_eq, not_false_eq_true, if_true, Option.some.injEq, Prod.mk.injEq] at h ⊢
      obtain ⟨rfl, rfl⟩ := h
      by_cases hw : w = v <;> simp [hw]

/-- The state handed to the next iteration agrees with the record. -/
theorem loopBody_next (th : Int) (i : Nat) (x : Int) (st st' : State) (acks acks' : List Int)
    (h : (loopBody th i x st acks).2 = some (st', acks')) :
    st'.current_module = (loopBody th i x st acks).1.moduleAfter ∧
    (loopBody th i x st acks).1.forwarded = some st'.writedata ∧
    st'.writtenBy = (loopBody th i x st acks).1.writtenBy ∧
    acks.length ≤ acks'.length + 1 := by
  unfold loopBody at h ⊢
  by_cases hx : x < th
  · simp only [hx, if_true] at h ⊢
    exact arm_next 1 1 i x st st' acks acks' h
  · simp only [hx, if_false] at h ⊢
    exact arm_next 2 2 i x st st' acks acks' h

/-- An iteration that hands no state on has forwarded nothing. -/
theorem arm_blocked (v d : Int) (i : Nat) (x : Int) (st : State) (acks : List Int)
    (h : (arm v d i x st acks).2 = none) :
    (arm v d i x st acks).1.forwarded = none ∧ acks = [] := by
  unfold arm transformAndForward at h ⊢
  by_cases hc : st.current_module = v
  · simp [hc] at h
  · cases acks with
    | nil => simp [hc]
    | cons w rest => simp [hc] at h

theorem loopBody_blocked (th : Int) (i : Nat) (x : Int) (st : State) (acks : List Int)
    (h : (loopBody th i x st acks).2 = none) :
    (loopBody th i x st acks).1.forwarded = none ∧ acks = [] := by
  unfold loopBody at h ⊢
  by_cases hx : x < th
  · simp only [hx, if_true] at h ⊢
    exact arm_blocked 1 1 i x st acks h
  · simp only [hx, if_false] at h ⊢
    exact arm_blocked 2 2 i x st acks h

theorem lastAck_cons (m : Int) (it : Iter) (its : List Iter) :
    lastAck m (it :: its) = lastAck ((it.ack).getD m) its := by
  unfold lastAck
  cases ha : it.ack with
  | none => simp [List.filterMap_cons, ha]
  | some w =>
    simp only [List.filterMap_cons, ha, Option.getD_some]
    cases hr : List.filterMap (fun it => it.ack) its with
    | nil => simp
    | cons b l => simp [List.getLast?_cons_cons, List.getLast?_eq_getLast]

theorem lastForwarded_cons (wd y : Int) (it : Iter) (its : List Iter)
    (h : it.forwarded = some y) :
    lastForwarded wd (it :: its) = lastForwarded y its := by
  unfold lastForwarded
  simp only [List.filterMap_cons, h]
  cases hr : List.filterMap (fun it => it.forwarded) its with
  | nil => simp
  | cons b l => simp [List.getLast?_cons_cons, List.getLast?_eq_getLast]

/-- Every iteration of the loop, from any starting index and state, is the
one its pipe traffic describes. -/
theorem loop_iterSpec (th : Int) : ∀ (xs : List Int) (i : Nat) (st : State) (acks : List Int)
    (k : Nat) (it : Iter), (loop th i xs st acks).1[k]? = some it →
    ∃ x, xs[k]? = some x ∧
      IterSpec th (i + k) x (lastAck st.current_module ((loop th i xs st acks).1.take k))
        (lastForwarded st.writedata ((loop th i xs st acks).1.take k)) it := by
  intro xs
  induction xs with
  | nil => intro i st acks k it h; simp [loop] at h
  | cons x xs ih =>
    intro i st acks k it h
    have hspec := loopBody_iter th i x st acks
    cases hb : (loopBody th i x st acks).2 with
    | none =>
      rw [loop_cons_blocked th i x xs st acks hb] at h ⊢
      cases k with
      | zero =>
        simp only [List.getElem?_cons_zero, Option.some.injEq] at h
        subst h
        exact ⟨x, by simp, by simpa [lastAck, lastForwarded] using hspec⟩
      | succ k => simp at h
    | some p =>
      obtain ⟨st', acks'⟩ := p
      obtain ⟨n1, n2, -, -⟩ := loopBody_next th i x st st' acks acks' hb
      rw [loop_cons_some th i x xs st acks st' acks' hb] at h ⊢
      cases k with
      | zero =>
        simp only [List.getElem?_cons_zero, Option.some.injEq] at h
        subst h
        exact ⟨x, by simp, by simpa [lastAck, lastForwarded] using hspec⟩
      | succ k =>
        simp only [List.getElem?_cons_succ] at h
        obtain ⟨y, e1, e2⟩ := ih (i + 1) st' acks' k it h
        refine ⟨y, by simpa using e1, ?_⟩
        rw [List.take_succ_cons, lastAck_cons, lastForwarded_cons _ _ _ _ n2,
          ← hspec.2.2.2.2.2.1, ← n1]
        have e : i + (k + 1) = i + 1 + k := by omega
        rw [e]
        exact e2

end PrSrc

namespace PrSrc

theorem required_cases (th x : Int) : required th x = 1 ∨ required th x = 2 := by
  unfold required
  split_ifs <;> simp

/-- Head iteration when its request, if any, is answered as asked. -/
theorem iterSpec_acknowledged (th : Int) (i : Nat) (x cur wd : Int) (it : Iter)
    (hs : IterSpec th i x cur wd it) (ha : it.request ≠ none → it.ack = it.request) :
    it.moduleAfter = required th x ∧
    it.forwarded = some (wrapLong (x + required th x)) ∧
    it.request = (if cur ≠ required th x then some (required th x) else none) := by
  obtain ⟨-, -, -, h4, h5, h6, h7, -, h9⟩ := hs
  have hm : it.moduleAfter = required th x := by
    by_cases hc : cur = required th x
    · rw [h6, h5 hc]; simpa using hc
    · have hr : it.request = some (required th x) := by rw [h4]; simp [hc]
      have : it.ack = some (required th x) := by rw [ha (by rw [hr]; simp), hr]
      rw [h6, this]; rfl
  have hf : it.forwarded ≠ none := by
    intro hn
    obtain ⟨hc, hack⟩ := h7.mp hn
    have hr : it.request = some (required th x) := by rw [h4]; simp [hc]
    have : it.ack = some (required th x) := by rw [ha (by rw [hr]; simp), hr]
    rw [hack] at this
    exact absurd this (by simp)
  refine ⟨hm, ?_, h4⟩
  cases hfw : it.forwarded with
  | none => exact absurd hfw hf
  | some y =>
    have := h9 y hfw
    rw [if_pos hm] at this
    rw [this]

/-- The loop when every request is answered as asked: it is left, it forwards
the transform of the variant each element requires, and it writes the
expected requests. -/
theorem loop_acknowledged (th : Int) : ∀ (xs : List Int) (i : Nat) (st : State)
    (acks : List Int),
    (∀ it ∈ (loop th i xs st acks).1, it.request ≠ none → it.ack = it.request) →
    (loop th i xs st acks).2 = true ∧
    (loop th i xs st acks).1.filterMap (fun it => it.forwarded) =
      xs.map (fun x => wrapLong (x + required th x)) ∧
    elementRequests (loop th i xs st acks).1 = expectedRequests th st.current_module xs := by
  intro xs
  induction xs with
  | nil => intro i st acks _; simp [loop, elementRequests, expectedRequests]
  | cons x xs ih =>
    intro i st acks h
    have hspec := loopBody_iter th i x st acks
    cases hb : (loopBody th i x st acks).2 with
    | none =>
      rw [loop_cons_blocked th i x xs st acks hb] at h
      have ha := h (loopBody th i x st acks).1 (by simp)
      obtain ⟨-, hf, -⟩ := iterSpec_acknowledged th i x _ _ _ hspec ha
      rw [(loopBody_blocked th i x st acks hb).1] at hf
      exact absurd hf (by simp)
    | some p =>
      obtain ⟨st', acks'⟩ := p
      obtain ⟨n1, -, -, -⟩ := loopBody_next th i x st st' acks acks' hb
      rw [loop_cons_some th i x xs st acks st' acks' hb] at h ⊢
      have ha := h (loopBody th i x st acks).1 (by simp)
      obtain ⟨hm, hf, hr⟩ := iterSpec_acknowledged th i x _ _ _ hspec ha
      obtain ⟨i1, i2, i3⟩ := ih (i + 1) st' acks' (fun it hit => h it (by simp [hit]))
      rw [n1, hm] at i3
      refine ⟨i1, ?_, ?_⟩
      · simp only [List.filterMap_cons, hf, List.map_cons, i2]
      · unfold elementRequests at i3 ⊢
        by_cases hc : st.current_module = required th x
        · simp only [hc, ne_eq, not_true_eq_false, if_false] at hr
          simp only [List.filterMap_cons, hr, i3, expectedRequests, hc, ne_eq,
            not_true_eq_false, if_false, List.nil_append]
        · simp only [hc, ne_eq, not_false_eq_true, if_true] at hr
          simp only [List.filterMap_cons, hr, i3, expectedRequests, hc, ne_eq,
            not_false_eq_true, if_true, List.singleton_append]

/-- An arm keeps the ghost invariant when acknowledgments are 1 or 2. -/
theorem arm_provenance (v d : Int) (hv : v = 1 ∨ v = 2) (i : Nat) (x : Int) (st st' : State)
    (acks acks' : List Int) (hp : Provenance st) (hacks : ∀ w ∈ acks, w = 1 ∨ w = 2)
    (h : (arm v d i x st acks).2 = some (st', acks')) :
    Provenance st' ∧ ∀ w ∈ acks', w = 1 ∨ w = 2 := by
  unfold arm transformAndForward at h
  by_cases hc : st.current_module = v
  · simp only [hc, ne_eq, not_true_eq_false, if_false, if_true, Option.some.injEq,
      Prod.mk.injEq] at h
    obtain ⟨rfl, rfl⟩ := h
    refine ⟨?_, hacks⟩
    intro p hp'
    simp only [Option.some.injEq] at hp'
    subst hp'
    exact ⟨hv, rfl⟩
  · cases acks with
    | nil => simp [hc] at h
    | cons w rest =>
      simp only [hc, ne_eq, not_false_eq_true, if_true, Option.some.injEq, Prod.mk.injEq] at h
      obtain ⟨rfl, rfl⟩ := h
      refine ⟨?_, fun u hu => hacks u (by simp [hu])⟩
      have hw := hacks w (by simp)
      by_cases hwv : w = v
      · intro p hp'
        simp only [hwv, if_true, Option.some.injEq] at hp' ⊢
        subst hp'
        exact ⟨hv, rfl⟩
      · intro p hp'
        simp only [hwv, if_false] at hp' ⊢
        obtain ⟨hp1, hp2⟩ := hp p hp'
        refine ⟨hp1, ?_⟩
        rw [hp2] at hc
        rcases hv with rfl | rfl <;> rcases hw with rfl | rfl <;> rcases hp1 with rfl | rfl <;>
          simp_all

theorem loopBody_provenance (th : Int) (i : Nat) (x : Int) (st st' : State)
    (acks acks' : List Int) (hp : Provenance st) (hacks : ∀ w ∈ acks, w = 1 ∨ w = 2)
    (h : (loopBody th i x st acks).2 = some (st', acks')) :
    Provenance st' ∧ ∀ w ∈ acks', w = 1 ∨ w = 2 := by
  unfold loopBody at h
  by_cases hx : x < th
  · simp only [hx, if_true] at h
    exact arm_provenance 1 1 (Or.inl rfl) i x st st' acks acks' hp hacks h
  · simp only [hx, if_false] at h
    exact arm_provenance 2 2 (Or.inr rfl) i x st st' acks acks' hp hacks h

/-- Causality along the loop when acknowledgments are 1 or 2. -/
theorem loop_causality (th : Int) : ∀ (xs : List Int) (i : Nat) (st : State)
    (acks : List Int), Provenance st → (∀ w ∈ acks, w = 1 ∨ w = 2) →
    ∀ it ∈ (loop th i xs st acks).1, it.forwarded ≠ none →
      ∀ v, it.writtenBy = some v → it.moduleAfter = v := by
  intro xs
  induction xs with
  | nil => intro i st acks _ _ it hit; simp [loop] at hit
  | cons x xs ih =>
    intro i st acks hp hacks it hit hf v hv
    cases hb : (loopBody th i x st acks).2 with
    | none =>
      rw [loop_cons_blocked th i x xs st acks hb] at hit
      simp only [List.mem_singleton] at hit
      subst hit
      exact absurd (loopBody_blocked th i x st acks hb).1 hf
    | some p =>
      obtain ⟨st', acks'⟩ := p
      obtain ⟨n1, -, n3, -⟩ := loopBody_next th i x st st' acks acks' hb
      obtain ⟨hp', hacks'⟩ := loopBody_provenance th i x st st' acks acks' hp hacks hb
      rw [loop_cons_some th i x xs st acks st' acks' hb] at hit
      simp only [List.mem_cons] at hit
      rcases hit with rfl | hit
      · rw [← n3] at hv
        rw [← n1]
        exact (hp' v hv).2
      · exact ih (i + 1) st' acks' hp' hacks' it hit hf v hv

/-- After an iteration that forwarded, the loop goes on to the next element. -/
theorem loop_continues (th : Int) : ∀ (xs : List Int) (i : Nat) (st : State)
    (acks : List Int) (k : Nat) (it : Iter), (loop th i xs st acks).1[k]? = some it →
    it.forwarded ≠ none → k + 1 < xs.length → k + 1 < (loop th i xs st acks).1.length := by
  intro xs
  induction xs with
  | nil => intro i st acks k it h; simp [loop] at h
  | cons x xs ih =>
    intro i st acks k it h hf hk
    cases hb : (loopBody th i x st acks).2 with
    | none =>
      rw [loop_cons_blocked th i x xs st acks hb] at h
      cases k with
      | zero =>
        simp only [List.getElem?_cons_zero, Option.some.injEq] at h
        subst h
        exact absurd (loopBody_blocked th i x st acks hb).1 hf
      | succ k => simp at h
    | some p =>
      obtain ⟨st', acks'⟩ := p
      rw [loop_cons_some th i x xs st acks st' acks' hb] at h ⊢
      cases k with
      | zero =>
        simp only [List.length_cons] at hk ⊢
        cases xs with
        | nil => simp at hk
        | cons y ys =>
          cases hb2 : (loopBody th (i + 1) y st' acks').2 with
          | none => rw [loop_cons_blocked th (i + 1) y ys st' acks' hb2]; simp
          | some q =>
            obtain ⟨st2, acks2⟩ := q
            rw [loop_cons_some th (i + 1) y ys st' acks' st2 acks2 hb2]; simp
      | succ k =>
        simp only [List.getElem?_cons_succ] at h
        simp only [List.length_cons] at hk ⊢
        have := ih (i + 1) st' acks' k it h hf (by omega)
        omega

end PrSrc

namespace PrSrc

theorem sound_mono (th : Int) (seen more : List Int) (st : State) (h : Sound th seen st) :
    Sound th (seen ++ more) st := by
  refine ⟨?_, h.2⟩
  intro v hv
  obtain ⟨x, hx, h1, h2⟩ := h.1 v hv
  exact ⟨x, by simp [hx], h1, h2⟩

/-- An arm keeps the meaning of the ghost field. -/
theorem arm_sound (th v : Int) (i : Nat) (x : Int) (hv : required th x = v)
    (seen : List Int) (st st' : State) (acks acks' : List Int) (hs : Sound th seen st)
    (h : (arm v v i x st acks).2 = some (st', acks')) : Sound th (seen ++ [x]) st' := by
  have key : ∀ cm : Int,
      Sound th (seen ++ [x])
        (if cm = v then
          { writedata := wrapLong (x + v), current_module := cm, writtenBy := some v }
         else { st with current_module := cm }) := by
    intro cm
    by_cases hc : cm = v
    · simp only [hc, if_true]
      refine ⟨?_, by simp⟩
      intro u hu
      simp only [Option.some.injEq] at hu
      subst hu
      exact ⟨x, by simp, hv, rfl⟩
    · simp only [hc, if_false]
      exact sound_mono th seen [x] _ hs
  unfold arm transformAndForward at h
  by_cases hc : st.current_module = v
  · simp only [hc, ne_eq, not_true_eq_false, if_false, Option.some.injEq,
      Prod.mk.injEq] at h
    rw [← h.1]
    simpa using key v
  · cases acks with
    | nil => simp [hc] at h
    | cons w rest =>
      simp only [hc, ne_eq, not_false_eq_true, if_true, Option.some.injEq, Prod.mk.injEq] at h
      rw [← h.1]
      exact key w

theorem loopBody_sound (th : Int) (i : Nat) (x : Int) (seen : List Int) (st st' : State)
    (acks acks' : List Int) (hs : Sound th seen st)
    (h : (loopBody th i x st acks).2 = some (st', acks')) : Sound th (seen ++ [x]) st' := by
  unfold loopBody at h
  by_cases hx : x < th
  · simp only [hx, if_true] at h
    exact arm_sound th 1 i x (by simp [required, hx]) seen st st' acks acks' hs h
  · simp only [hx, if_false] at h
    exact arm_sound th 2 i x (by simp [required, hx]) seen st st' acks acks' hs h

/-- The ghost field along the loop: a forwarded value it attributes to variant
`v` is that variant's transform of an element read so far. -/
theorem loop_sound (th : Int) : ∀ (xs seen : List Int) (i : Nat) (st : State)
    (acks : List Int), Sound th seen st → ∀ (k : Nat) (it : Iter),
    (loop th i xs st acks).1[k]? = some it → ∀ y, it.forwarded = some y →
    (∀ v, it.writtenBy = some v →
      ∃ x ∈ seen ++ xs.take (k + 1), required th x = v ∧ y = wrapLong (x + v)) ∧
    (it.writtenBy = none → y = 0) := by
  intro xs
  induction xs with
  | nil => intro seen i st acks _ k it h; simp [loop] at h
  | cons x xs ih =>
    intro seen i st acks hs k it h y hy
    cases hb : (loopBody th i x st acks).2 with
    | none =>
      rw [loop_cons_blocked th i x xs st acks hb] at h
      cases k with
      | zero =>
        simp only [List.getElem?_cons_zero, Option.some.injEq] at h
        subst h
        rw [(loopBody_blocked th i x st acks hb).1] at hy
        exact absurd hy (by simp)
      | succ k => simp at h
    | some p =>
      obtain ⟨st', acks'⟩ := p
      obtain ⟨-, n2, n3, -⟩ := loopBody_next th i x st st' acks acks' hb
      have hs' := loopBody_sound th i x seen st st' acks acks' hs hb
      rw [loop_cons_some th i x xs st acks st' acks' hb] at h
      cases k with
      | zero =>
        simp only [List.getElem?_cons_zero, Option.some.injEq] at h
        subst h
        rw [n2] at hy
        simp only [Option.some.injEq] at hy
        subst hy
        rw [← n3]
        simpa [Sound] using hs'
      | succ k =>
        simp only [List.getElem?_cons_succ] at h
        have := ih (seen ++ [x]) (i + 1) st' acks' hs' k it h y hy
        simpa [List.take_succ_cons, List.append_assoc] using this

/-- The ghost field of a run of `pr_src`: a forwarded value attributed to
variant `v` is `x + v` (in 64 bits) for an element `x` at an index up to the
current one that required `v`; a value attributed to no variant is the
initial 0. -/
theorem writtenBy_sound (a : List Int) (th m : Int) (acks : List Int) (k : Nat) (it : Iter)
    (h : (pr_src a th m acks).iters[k]? = some it) (y : Int) (hy : it.forwarded = some y) :
    (∀ v, it.writtenBy = some v →
      ∃ x ∈ a.take (k + 1), required th x = v ∧ y = wrapLong (x + v)) ∧
    (it.writtenBy = none → y = 0) := by
  unfold pr_src at h
  have := loop_sound th a [] 0 _ acks (by simp [Sound]) k it h y hy
  simpa using this

/-- The guard of lines 94 and 103, for every acknowledgment sequence: a
transform of variant `v` runs in an iteration only when the module is `v`. -/
theorem transform_guard (a : List Int) (th m : Int) (acks : List Int) (k : Nat) (it : Iter)
    (h : (pr_src a th m acks).iters[k]? = some it) (v : Int) (hv : it.transformed = some v) :
    it.moduleAfter = v := by
  unfold pr_src at h
  obtain ⟨x, -, hs⟩ := loop_iterSpec th a 0 _ acks k it h
  have h8 := hs.2.2.2.2.2.2.2.1
  rw [hv] at h8
  split_ifs at h8 with hc
  simp only [Option.some.injEq] at h8
  rw [h8]
  exact hc.2

end PrSrc

namespace PrSrc

/-- What an arm hands on, case by case. -/
theorem arm_state (v d : Int) (i : Nat) (x : Int) (st : State) (acks : List Int) :
    (st.current_module = v →
      ∃ st', (arm v d i x st acks).2 = some (st', acks) ∧
        st'.current_module = st.current_module) ∧
    (st.current_module ≠ v → acks = [] → (arm v d i x st acks).2 = none) ∧
    (∀ w rest, st.current_module ≠ v → acks = w :: rest →
      ∃ st', (arm v d i x st acks).2 = some (st', rest) ∧ st'.current_module = w) := by
  unfold arm transformAndForward
  refine ⟨?_, ?_, ?_⟩
  · intro hc
    simp [hc]
  · intro hc ha
    subst ha
    simp [hc]
  · intro w rest hc ha
    subst ha
    by_cases hw : w = v <;> simp [hc, hw]

/-- What the loop body hands on, case by case. -/
theorem loopBody_state (th : Int) (i : Nat) (x : Int) (st : State) (acks : List Int) :
    (st.current_module = required th x →
      ∃ st', (loopBody th i x st acks).2 = some (st', acks) ∧
        st'.current_module = st.current_module) ∧
    (st.current_module ≠ required th x → acks = [] → (loopBody th i x st acks).2 = none) ∧
    (∀ w rest, st.current_module ≠ required th x → acks = w :: rest →
      ∃ st', (loopBody th i x st acks).2 = some (st', rest) ∧ st'.current_module = w) := by
  unfold loopBody required
  by_cases hx : x < th
  · simp only [hx, if_true]
    exact arm_state 1 1 i x st acks
  · simp only [hx, if_false]
    exact arm_state 2 2 i x st acks

/-- The three ways one pass of the loop can go, with the loop unfolded. -/
theorem loop_cons_cases (th : Int) (i : Nat) (x : Int) (xs : List Int) (st : State)
    (acks : List Int) :
    (st.current_module = required th x ∧
      ∃ st', st'.current_module = st.current_module ∧
        Served th st.current_module (x :: xs) acks = Served th st'.current_module xs acks ∧
        loop th i (x :: xs) st acks =
          ((loopBody th i x st acks).1 :: (loop th (i + 1) xs st' acks).1,
            (loop th (i + 1) xs st' acks).2)) ∨
    (st.current_module ≠ required th x ∧ acks = [] ∧
      Served th st.current_module (x :: xs) acks = false ∧
      loop th i (x :: xs) st acks = ([(loopBody th i x st acks).1], false)) ∨
    (st.current_module ≠ required th x ∧
      ∃ w rest st', acks = w :: rest ∧ st'.current_module = w ∧
        Served th st.current_module (x :: xs) acks = Served th st'.current_module xs rest ∧
        loop th i (x :: xs) st acks =
          ((loopBody th i x st acks).1 :: (loop th (i + 1) xs st' rest).1,
            (loop th (i + 1) xs st' rest).2)) := by
  obtain ⟨h1, h2, h3⟩ := loopBody_state th i x st acks
  by_cases hc : st.current_module = required th x
  · left
    obtain ⟨st', hb, hm⟩ := h1 hc
    refine ⟨hc, st', hm, ?_, loop_cons_some th i x xs st acks st' acks hb⟩
    rw [hm]
    simp [Served, hc]
  · cases ha : acks with
    | nil =>
      right; left
      subst ha
      refine ⟨hc, rfl, ?_, loop_cons_blocked th i x xs st [] (h2 hc rfl)⟩
      simp [Served, hc]
    | cons w rest =>
      right; right
      subst ha
      obtain ⟨st', hb, hm⟩ := h3 w rest hc rfl
      refine ⟨hc, w, rest, st', rfl, hm, ?_,
        loop_cons_some th i x xs st (w :: rest) st' rest hb⟩
      rw [hm]
      simp [Served, hc]

/-- The loop reaches element `k` exactly when every read the elements before
it call for is served. -/
theorem loop_length_iff (th : Int) : ∀ (xs : List Int) (i : Nat) (st : State)
    (acks : List Int) (k : Nat), k < xs.length →
    (k < (loop th i xs st acks).1.length ↔
      Served th st.current_module (xs.take k) acks = true) := by
  intro xs
  induction xs with
  | nil => intro i st acks k hk; simp at hk
  | cons x xs ih =>
    intro i st acks k hk
    cases k with
    | zero =>
      rcases loop_cons_cases th i x xs st acks with
        ⟨-, st', -, -, e⟩ | ⟨-, -, -, e⟩ | ⟨-, w, rest, st', -, -, -, e⟩ <;>
        simp [e, Served]
    | succ k =>
      simp only [List.length_cons] at hk
      have hk' : k < xs.length := by omega
      rw [List.take_succ_cons]
      rcases loop_cons_cases th i x (xs.take k) st acks with
        ⟨hc, st1, hm1, s1, -⟩ | ⟨hc, ha, s1, -⟩ | ⟨hc, w, rest, st1, ha, hm1, s1, -⟩
      · obtain ⟨st', hb, hm⟩ := (loopBody_state th i x st acks).1 hc
        rw [loop_cons_some th i x xs st acks st' acks hb, s1, hm1, ← hm]
        simpa using ih (i + 1) st' acks k hk'
      · rw [loop_cons_blocked th i x xs st acks
          ((loopBody_state th i x st acks).2.1 hc ha), s1]
        simp
      · obtain ⟨st', hb, hm⟩ := (loopBody_state th i x st acks).2.2 w rest hc ha
        rw [loop_cons_some th i x xs st acks st' rest hb, s1, hm1, ← hm]
        simpa using ih (i + 1) st' rest k hk'

/-- The loop is left exactly when every read is served. -/
theorem loop_finished_iff (th : Int) : ∀ (xs : List Int) (i : Nat) (st : State)
    (acks : List Int),
    ((loop th i xs st acks).2 = true ↔ Served th st.current_module xs acks = true) := by
  intro xs
  induction xs with
  | nil => intro i st acks; simp [loop, Served]
  | cons x xs ih =>
    intro i st acks
    rcases loop_cons_cases th i x xs st acks with
      ⟨-, st', -, s, e⟩ | ⟨-, -, s, e⟩ | ⟨-, w, rest, st', -, -, s, e⟩
    · rw [e, s]; exact ih (i + 1) st' acks
    · rw [e, s]
    · rw [e, s]; exact ih (i + 1) st' rest

/-- The loop never runs more iterations than there are elements. -/
theorem loop_length_le (th : Int) : ∀ (xs : List Int) (i : Nat) (st : State)
    (acks : List Int), (loop th i xs st acks).1.length ≤ xs.length := by
  intro xs
  induction xs with
  | nil => intro i st acks; simp [loop]
  | cons x xs ih =>
    intro i st acks
    rcases loop_cons_cases th i x xs st acks with
      ⟨-, st', -, -, e⟩ | ⟨-, -, -, e⟩ | ⟨-, w, rest, st', -, -, -, e⟩
    · rw [e]; simpa using ih (i + 1) st' acks
    · rw [e]; simp
    · rw [e]; simpa using ih (i + 1) st' rest

/-- One acknowledgment for each element is enough to serve every read. -/
theorem served_of_length_le (th : Int) : ∀ (xs : List Int) (m : Int) (acks : List Int),
    xs.length ≤ acks.length → Served th m xs acks = true := by
  intro xs
  induction xs with
  | nil => intro m acks _; rfl
  | cons x xs ih =>
    intro m acks h
    unfold Served
    by_cases hc : m = required th x
    · simp only [hc, if_true]
      exact ih _ acks (by simp only [List.length_cons] at h; omega)
    · cases acks with
      | nil => simp at h
      | cons w rest =>
        simp only [hc, if_false]
        exact ih w rest (by simp only [List.length_cons] at h; omega)

end PrSrc

namespace PrSrc

theorem mem_events_request (it : Iter) (v : Int) :
    Event.request v ∈ it.events ↔ it.request = some v := by
  unfold Iter.events
  cases it.request <;> cases it.ack <;> cases it.forwarded <;> simp [eq_comm]

theorem events_forwardIndex (it : Iter) :
    it.events.filterMap Event.forwardIndex =
      (match it.forwarded with
       | some _ => [it.index]
       | none => []) := by
  unfold Iter.events
  cases it.request <;> cases it.ack <;> cases it.forwarded <;>
    simp [List.filterMap_cons, Event.forwardIndex]

/-- Requests written inside the loop are 1 or 2. -/
theorem loop_requests (th : Int) : ∀ (xs : List Int) (i : Nat) (st : State)
    (acks : List Int), ∀ it ∈ (loop th i xs st acks).1, ∀ v, it.request = some v →
      v = 1 ∨ v = 2 := by
  intro xs i st acks it hit v hv
  obtain ⟨k, hk⟩ := List.mem_iff_getElem?.mp hit
  obtain ⟨x, -, hs⟩ := loop_iterSpec th xs i st acks k it hk
  have h4 := hs.2.2.2.1
  rw [hv] at h4
  split_ifs at h4
  simp only [Option.some.injEq] at h4
  rw [h4]
  exact required_cases th x

/-- An iteration that hands a state on leaves the same reads to serve. -/
theorem served_step (th : Int) (i : Nat) (x : Int) (xs : List Int) (st st' : State)
    (acks acks' : List Int) (hb : (loopBody th i x st acks).2 = some (st', acks')) :
    Served th st.current_module (x :: xs) acks = Served th st'.current_module xs acks' := by
  obtain ⟨h1, h2, h3⟩ := loopBody_state th i x st acks
  by_cases hc : st.current_module = required th x
  · obtain ⟨st2, e, hm⟩ := h1 hc
    rw [e] at hb
    simp only [Option.some.injEq, Prod.mk.injEq] at hb
    obtain ⟨rfl, rfl⟩ := hb
    rw [hm]
    simp [Served, hc]
  · cases acks with
    | nil =>
      rw [h2 hc rfl] at hb
      exact absurd hb (by simp)
    | cons w rest =>
      obtain ⟨st2, e, hm⟩ := h3 w rest hc rfl
      rw [e] at hb
      simp only [Option.some.injEq, Prod.mk.injEq] at hb
      obtain ⟨rfl, rfl⟩ := hb
      rw [hm]
      simp [Served, hc]

/-- An iteration stuck in its read had a read that is not served. -/
theorem served_blocked (th : Int) (i : Nat) (x : Int) (xs : List Int) (st : State)
    (acks : List Int) (hb : (loopBody th i x st acks).2 = none) :
    Served th st.current_module (x :: xs) acks = false := by
  obtain ⟨h1, -, -⟩ := loopBody_state th i x st acks
  have ha := (loopBody_blocked th i x st acks hb).2
  subst ha
  by_cases hc : st.current_module = required th x
  · obtain ⟨st2, e, -⟩ := h1 hc
    rw [e] at hb
    exact absurd hb (by simp)
  · simp [Served, hc]

theorem events_forwardPair (it : Iter) :
    it.events.filterMap Event.forwardPair =
      (match it.forwarded with
       | some y => [(it.index, y)]
       | none => []) := by
  unfold Iter.events
  cases it.request <;> cases it.ack <;> cases it.forwarded <;>
    simp [List.filterMap_cons, Event.forwardPair]

/-- With every read served the loop is left, it runs one iteration for each
element, in order, and each forwards one value. -/
theorem loop_served (th : Int) : ∀ (xs : List Int) (i : Nat) (st : State)
    (acks : List Int), Served th st.current_module xs acks = true →
    (loop th i xs st acks).2 = true ∧
    (loop th i xs st acks).1.length = xs.length ∧
    (∀ it ∈ (loop th i xs st acks).1, it.forwarded ≠ none) ∧
    (loop th i xs st acks).1.map (fun it => it.readdata) = xs ∧
    (loop th i xs st acks).1.map (fun it => it.index) = List.range' i xs.length ∧
    ((loop th i xs st acks).1.filterMap (fun it => it.forwarded)).length = xs.length ∧
    (eventsOf (loop th i xs st acks).1).filterMap Event.forwardIndex =
      List.range' i xs.length ∧
    forwardEvents (eventsOf (loop th i xs st acks).1) =
      (loop th i xs st acks).1.map (fun it => (it.index, (it.forwarded).getD 0)) := by
  intro xs
  induction xs with
  | nil => intro i st acks _; simp [loop, eventsOf, forwardEvents]
  | cons x xs ih =>
    intro i st acks h
    have hspec := loopBody_iter th i x st acks
    cases hb : (loopBody th i x st acks).2 with
    | none =>
      rw [served_blocked th i x xs st acks hb] at h
      exact absurd h (by simp)
    | some p =>
      obtain ⟨st', acks'⟩ := p
      obtain ⟨-, n2, -, -⟩ := loopBody_next th i x st st' acks acks' hb
      rw [served_step th i x xs st st' acks acks' hb] at h
      rw [loop_cons_some th i x xs st acks st' acks' hb]
      obtain ⟨i1, i2, i3, i4, i5, i6, i7, i8⟩ := ih (i + 1) st' acks' h
      unfold forwardEvents at i8 ⊢
      refine ⟨i1, ?_, ?_, ?_, ?_, ?_, ?_, ?_⟩
      · simp only [List.length_cons, i2]
      · intro it hit
        simp only [List.mem_cons] at hit
        rcases hit with rfl | hit
        · rw [n2]; simp
        · exact i3 it hit
      · simp only [List.map_cons, i4, hspec.2.1]
      · simp only [List.map_cons, i5, hspec.1, List.length_cons, List.range'_succ]
      · simp only [List.filterMap_cons, n2, List.length_cons, i6]
      · simp only [eventsOf, List.filterMap_append, events_forwardIndex, n2, i7, hspec.1,
          List.length_cons, List.range'_succ, List.singleton_append]
      · simp only [eventsOf, List.filterMap_append, events_forwardPair, n2, i8, hspec.1,
          List.map_cons, Option.getD_some, List.singleton_append]

end PrSrc

namespace Host

theorem slot_run_append (l1 l2 : List Action) : ∀ (s : Slot),
    Slot.run s (l1 ++ l2) =
      (match Slot.run s l1 with
       | none => none
       | some s' => Slot.run s' l2) := by
  induction l1 with
  | nil => intro s; simp [Slot.run]
  | cons a l ih =>
    intro s
    simp only [List.cons_append, Slot.run]
    cases s.next a with
    | none => rfl
    | some s' => exact ih s'

theorem installedAfter_append (l1 l2 : List Action) : ∀ (cur : Option Int),
    installedAfter cur (l1 ++ l2) = installedAfter (installedAfter cur l1) l2 := by
  induction l1 with
  | nil => intro cur; simp [installedAfter]
  | cons a l ih =>
    intro cur
    cases a <;> simp only [List.cons_append, installedAfter] <;> exact ih _

/-- One pass of the loop body on a request for a known variant. -/
theorem step_known (st : Ctrl) (v : Int) (c : Nat) (hv : v = 1 ∨ v = 2)
    (hcm : st.current_module = 1 ∨ st.current_module = 2) :
    step st v c =
      { state := { current_module := v,
                   ev_sink := { variant := v, resume := c, status := Status.running } },
        actions := [Action.stop st.current_module, Action.waitSink, Action.readCheckpoint c,
          Action.startSink v c, Action.waitRunning, Action.resetRequestMonitor, Action.ack v],
        hung := false } := by
  unfold step stopActive reconfigure pollRunning
  rcases hv with rfl | rfl <;> rcases hcm with h | h <;> simp [h]

/-- One pass of the loop body on a request for no known variant. -/
theorem step_unknown (st : Ctrl) (r : Int) (c : Nat) (h0 : r ≠ 0) (h1 : r ≠ 1) (h2 : r ≠ 2)
    (hcm : st.current_module = 1 ∨ st.current_module = 2) :
    step st r c =
      { state := { current_module := st.current_module,
                   ev_sink := { st.ev_sink with status := Status.complete } },
        actions := [Action.stop st.current_module, Action.waitSink, Action.readCheckpoint c,
          Action.waitRunning],
        hung := true } := by
  unfold step stopActive reconfigure pollRunning
  rcases hcm with h | h <;> simp [h, h0, h1, h2]

/-- The controller loop from any state whose module names the installed
kernel. -/
theorem runController_invariant : ∀ (obs : List (Int × Nat)) (st : Ctrl),
    (∀ o ∈ obs, o.1 = 0 ∨ o.1 = 1 ∨ o.1 = 2) →
    (st.current_module = 1 ∨ st.current_module = 2) →
    st.current_module = st.ev_sink.variant →
    (runController st obs).hung = false ∧
    ((runController st obs).state.current_module = 1 ∨
      (runController st obs).state.current_module = 2) ∧
    (runController st obs).state.current_module =
      (runController st obs).state.ev_sink.variant ∧
    installedAfter (some st.current_module) (runController st obs).actions =
      some (runController st obs).state.current_module ∧
    Slot.run (Slot.running st.current_module) (runController st obs).actions =
      some (Slot.running (runController st obs).state.current_module) := by
  intro obs
  induction obs with
  | nil =>
    intro st _ hcm hev
    exact ⟨rfl, hcm, hev, rfl, rfl⟩
  | cons o rest ih =>
    intro st h hcm hev
    obtain ⟨r, c⟩ := o
    have hr := h (r, c) (by simp)
    have hrest : ∀ o ∈ rest, o.1 = 0 ∨ o.1 = 1 ∨ o.1 = 2 := fun o ho => h o (by simp [ho])
    simp only at hr
    rcases hr with rfl | hr
    · have hs : step st 0 c = { state := st, actions := [], hung := false } := by
        simp [step]
      simp only [runController, hs, List.nil_append]
      simpa using ih st hrest hcm hev
    · have hs := step_known st r c hr hcm
      obtain ⟨i1, i2, i3, i4, i5⟩ :=
        ih { current_module := r,
             ev_sink := { variant := r, resume := c, status := Status.running } } hrest hr rfl
      simp only [runController, hs, Bool.false_eq_true, if_false]
      refine ⟨i1, i2, i3, ?_, ?_⟩
      · rw [installedAfter_append]
        simpa [installedAfter] using i4
      · rw [slot_run_append]
        simpa [Slot.run, Slot.next] using i5

end Host

namespace PrSrc

theorem lastAck_concat (m : Int) (its : List Iter) (it : Iter) :
    lastAck m (its ++ [it]) = (it.ack).getD (lastAck m its) := by
  induction its generalizing m with
  | nil => rw [List.nil_append, lastAck_cons]; rfl
  | cons j its ih => rw [List.cons_append, lastAck_cons, lastAck_cons, ih]

/-- The module recorded at the moment of forwarding is the last
acknowledgment read up to and including this iteration, the initial module
when there is none. -/
theorem moduleAfter_eq_lastAck (a : List Int) (th m : Int) (acks : List Int) (k : Nat)
    (it : Iter) (h : (pr_src a th m acks).iters[k]? = some it) :
    it.moduleAfter = lastAck m ((pr_src a th m acks).iters.take (k + 1)) := by
  have hk : k < (pr_src a th m acks).iters.length := by
    by_contra hn
    rw [List.getElem?_eq_none (by omega)] at h
    exact absurd h (by simp)
  have hget : (pr_src a th m acks).iters[k] = it := by
    rw [List.getElem?_eq_getElem hk] at h
    simpa using h
  rw [List.take_succ, h]
  simp only [Option.toList]
  rw [lastAck_concat]
  unfold pr_src at h ⊢
  obtain ⟨x, -, hs⟩ := loop_iterSpec th a 0 _ acks k it h
  exact hs.2.2.2.2.2.1

end PrSrc

namespace Host

/-- Whatever the loop observes, `current_module` names variant 1 or 2 in every
state it reaches from the initial one. -/
theorem runController_module : ∀ (obs : List (Int × Nat)) (st : Ctrl),
    (st.current_module = 1 ∨ st.current_module = 2) →
    ((runController st obs).state.current_module = 1 ∨
      (runController st obs).state.current_module = 2) := by
  intro obs
  induction obs with
  | nil => intro st h; exact h
  | cons o rest ih =>
    intro st hcm
    obtain ⟨r, c⟩ := o
    by_cases h0 : r = 0
    · subst h0
      have hs : step st 0 c = { state := st, actions := [], hung := false } := by
        simp [step]
      simp only [runController, hs, List.nil_append]
      simpa using ih st hcm
    · by_cases hr : r = 1 ∨ r = 2
      · have hs := step_known st r c hr hcm
        simp only [runController, hs, Bool.false_eq_true, if_false]
        exact ih _ hr
      · have hs := step_unknown st r c h0 (fun h => hr (Or.inl h)) (fun h => hr (Or.inr h)) hcm
        simp only [runController, hs, if_true]
        exact hcm

/-- Reachable states of the controller hold a module id that names a variant. -/
theorem reachable_current_module (obs : List (Int × Nat)) :
    (runController init obs).state.current_module = 1 ∨
      (runController init obs).state.current_module = 2 :=
  runController_module obs init (Or.inl rfl)

end Host

namespace PrSrc

/-- The request rule for an iteration the run is known to have. -/
theorem iteration_request_rule (a : List Int) (th m : Int) (acks : List Int) (k : Nat)
    (it : Iter) (h : (pr_src a th m acks).iters[k]? = some it) :
    ∃ x, a[k]? = some x ∧ it.index = k ∧ it.readdata = x ∧
      it.request =
        (if lastAck m ((pr_src a th m acks).iters.take k) ≠ required th x
         then some (required th x) else none) ∧
      (lastAck m ((pr_src a th m acks).iters.take k) = required th x →
        it.request = none ∧ it.ack = none) := by
  unfold pr_src at h ⊢
  obtain ⟨x, hx, hs⟩ := loop_iterSpec th a 0 _ acks k it h
  obtain ⟨h1, h2, -, h4, h5, -⟩ := hs
  refine ⟨x, hx, by simpa using h1, h2, h4, ?_⟩
  intro hc
  refine ⟨?_, h5 hc⟩
  rw [h4]
  simp only [ne_eq, ite_eq_right_iff]
  intro hn
  exact absurd hc hn

/-- The run of `pr_src` reaches element `k` exactly when every read the
elements before it call for is served. -/
theorem iteration_exists_iff (a : List Int) (th m : Int) (acks : List Int) (k : Nat)
    (hk : k < a.length) :
    ((∃ it, (pr_src a th m acks).iters[k]? = some it) ↔ Served th m (a.take k) acks = true) := by
  have h := loop_length_iff th a 0
    { writedata := 0, current_module := m, writtenBy := none } acks k hk
  unfold pr_src
  simp only at h ⊢
  rw [← h]
  constructor
  · rintro ⟨it, hit⟩
    by_contra hn
    rw [List.getElem?_eq_none (by omega)] at hit
    exact absurd hit (by simp)
  · intro hlt
    exact ⟨_, List.getElem?_eq_getElem hlt⟩

/-- The kernel reaches its closing write of 0 exactly when every read is
served; otherwise it stays in a read for ever. -/
theorem finished_iff_served (a : List Int) (th m : Int) (acks : List Int) :
    ((pr_src a th m acks).finished = true ↔ Served th m a acks = true) := by
  unfold pr_src
  exact loop_finished_iff th a 0 _ acks

/-- The kernel never runs more iterations than `num_items`. -/
theorem iters_length_le (a : List Int) (th m : Int) (acks : List Int) :
    (pr_src a th m acks).iters.length ≤ a.length := by
  unfold pr_src
  exact loop_length_le th a 0 _ acks

end PrSrc

/-! ## The claims -/

namespace PrSrc

/-- C1 (as amended): acknowledgment causality of `pr_src` when every value
read from the ack pipe is 1 or 2. Each value the producer forwards that a
transform of variant `v` computed is forwarded while the producer's most
recently received acknowledgment (the initial module before any) equals `v`. -/
theorem ack_causality_for_variant_acks (a : List Int) (th m : Int) (acks : List Int)
    (hacks : ∀ w ∈ acks, w = 1 ∨ w = 2) : AckCausality (pr_src a th m acks) := by
  unfold AckCausality pr_src
  exact loop_causality th a 0 _ acks (by intro p hp; simp at hp) hacks

/-- C2: `pr_src` runs an iteration on every element it reaches: the first one
always, a later one when every read the elements before it call for is served.
In that iteration it writes a request exactly when the variant the element
requires differs from its current module (the initial module or the last
acknowledgment read); the request carries the required variant, and on
equality neither a request is written nor an acknowledgment read. -/
theorem request_only_on_mismatch (a : List Int) (th m : Int) (acks : List Int) (k : Nat)
    (x : Int) (hx : a[k]? = some x) (hs : Served th m (a.take k) acks = true) :
    ∃ it, (pr_src a th m acks).iters[k]? = some it ∧ it.index = k ∧ it.readdata = x ∧
      it.request =
        (if lastAck m ((pr_src a th m acks).iters.take k) ≠ required th x
         then some (required th x) else none) ∧
      (Event.request (required th x) ∈ it.events ↔
        lastAck m ((pr_src a th m acks).iters.take k) ≠ required th x) ∧
      (lastAck m ((pr_src a th m acks).iters.take k) = required th x →
        it.request = none ∧ it.ack = none ∧
        ∀ v, Event.request v ∉ it.events ∧ Event.ackRead v ∉ it.events) := by
  have hk : k < a.length := by
    by_contra hn
    rw [List.getElem?_eq_none (by omega)] at hx
    exact absurd hx (by simp)
  obtain ⟨it, hit⟩ := (iteration_exists_iff a th m acks k hk).mpr hs
  obtain ⟨x', hx', h1, h2, h4, h5⟩ := iteration_request_rule a th m acks k it hit
  rw [hx] at hx'
  simp only [Option.some.injEq] at hx'
  subst hx'
  refine ⟨it, hit, h1, h2, h4, ?_, ?_⟩
  · rw [mem_events_request, h4]
    by_cases hc : lastAck m ((pr_src a th m acks).iters.take k) = required th x <;> simp [hc]
  · intro hc
    obtain ⟨r1, r2⟩ := h5 hc
    refine ⟨r1, r2, ?_⟩
    intro v
    unfold Iter.events
    rw [r1, r2]
    cases it.forwarded <;> simp

/-- C4 (as amended): when every request is acknowledged with the variant that
was requested and no 64-bit sum overflows, the value `pr_src` forwards for
index `i` is `input[i] + 1` when `input[i] < threshold` and `input[i] + 2`
otherwise. -/
theorem per_index_forwarded_value (a : List Int) (th m : Int) (acks : List Int)
    (hr : ∀ x ∈ a, LONG_MIN ≤ x ∧ x + 2 ≤ LONG_MAX)
    (hack : Acknowledged (pr_src a th m acks)) :
    (pr_src a th m acks).forwardedValues =
      a.map (fun x => if x < th then x + 1 else x + 2) := by
  unfold Acknowledged pr_src at hack
  unfold Run.forwardedValues pr_src
  obtain ⟨-, h2, -⟩ := loop_acknowledged th a 0 _ acks hack
  simp only at h2 ⊢
  rw [h2]
  apply List.map_congr_left
  intro x hx
  obtain ⟨l, u⟩ := hr x hx
  unfold LONG_MIN at l
  unfold LONG_MAX at u
  unfold required wrapLong
  split_ifs <;> omega

/-- C8 (as amended): when `pr_src` writes a request for variant `v` and the
acknowledgment it then reads is another id `w`, it takes `w` as its module,
applies no transform, forwards the value `writedata` already held (the last
value forwarded, 0 when there is none) and goes on to the next element. -/
theorem stale_ack_forwards_held_value (a : List Int) (th m : Int) (acks : List Int)
    (k : Nat) (it : Iter) (v w : Int) (h : (pr_src a th m acks).iters[k]? = some it)
    (hreq : it.request = some v) (hackv : it.ack = some w) (hne : w ≠ v) :
    it.transformed = none ∧ it.moduleAfter = w ∧
    it.forwarded = some (lastForwarded 0 ((pr_src a th m acks).iters.take k)) ∧
    (k + 1 < a.length → k + 1 < (pr_src a th m acks).iters.length) := by
  unfold pr_src at h ⊢
  obtain ⟨x, -, hs⟩ := loop_iterSpec th a 0 _ acks k it h
  obtain ⟨-, -, -, h4, -, h6, h7, h8, h9⟩ := hs
  have hv : v = required th x := by
    rw [hreq] at h4
    split_ifs at h4
    simpa using h4
  have hm : it.moduleAfter = w := by rw [h6, hackv]; rfl
  have hmne : ¬ it.moduleAfter = required th x := by rw [hm, ← hv]; exact hne
  have hf : it.forwarded ≠ none := by
    intro hn
    have := (h7.mp hn).2
    rw [hackv] at this
    exact absurd this (by simp)
  refine ⟨?_, hm, ?_, ?_⟩
  · rw [h8]; simp [hmne]
  · cases hfw : it.forwarded with
    | none => exact absurd hfw hf
    | some y =>
      have := h9 y hfw
      rw [if_neg hmne] at this
      rw [this]
  · exact loop_continues th a 0 _ acks k it h hf

/-- C9: for every input of length `N` (0 included), threshold, initial module
and acknowledgment sequence that serves every read the run makes (no more is
asked of it: a run without switches needs none), `pr_src` is left after `N`
iterations, the iteration at position `k` reads `a[k]`, and the writes to the
output pipe are exactly `N`, the one at position `k` carrying index `k` and
the value computed from `a[k]` (the held value on a mismatched
acknowledgment); the requests end with one request 0 written after the last
element, 0 is written nowhere else and every other request is 1 or 2. -/
theorem end_of_stream_sentinel (a : List Int) (th m : Int) (acks : List Int)
    (h : Served th m a acks = true) :
    (pr_src a th m acks).finished = true ∧
    (pr_src a th m acks).iters.map (fun it => it.readdata) = a ∧
    (pr_src a th m acks).iters.map (fun it => it.index) = List.range a.length ∧
    (pr_src a th m acks).forwardedValues.length = a.length ∧
    (forwardEvents (pr_src a th m acks).events).length = a.length ∧
    (∀ k x, a[k]? = some x →
      (forwardEvents (pr_src a th m acks).events)[k]? =
        some (k,
          if lastAck m ((pr_src a th m acks).iters.take (k + 1)) = required th x
          then wrapLong (x + required th x)
          else lastForwarded 0 ((pr_src a th m acks).iters.take k))) ∧
    (eventsOf (pr_src a th m acks).iters).filterMap Event.forwardIndex =
      List.range a.length ∧
    (pr_src a th m acks).events =
      eventsOf (pr_src a th m acks).iters ++ [Event.request 0] ∧
    (∀ it ∈ (pr_src a th m acks).iters, ∀ v, Event.request v ∈ it.events → v = 1 ∨ v = 2) ∧
    (pr_src a th m acks).requests = elementRequests (pr_src a th m acks).iters ++ [0] ∧
    (∀ v ∈ elementRequests (pr_src a th m acks).iters, v = 1 ∨ v = 2) := by
  have hfin : (pr_src a th m acks).finished = true := (finished_iff_served a th m acks).mpr h
  obtain ⟨-, h2, h3, h4, h5, h6, h7, h8⟩ := loop_served th a 0
    { writedata := 0, current_module := m, writtenBy := none } acks h
  have hev : (pr_src a th m acks).events =
      eventsOf (pr_src a th m acks).iters ++ [Event.request 0] := by
    unfold Run.events
    simp only [hfin, if_true]
  have hfe : forwardEvents (pr_src a th m acks).events =
      (pr_src a th m acks).iters.map (fun it => (it.index, (it.forwarded).getD 0)) := by
    rw [hev]
    unfold forwardEvents at h8 ⊢
    rw [List.filterMap_append]
    unfold pr_src
    simp only [h8]
    simp [Event.forwardPair]
  refine ⟨hfin, h4, ?_, h6, ?_, ?_, ?_, hev, ?_, ?_, ?_⟩
  · unfold pr_src
    simp only [h5, List.range_eq_range']
  · rw [hfe, List.length_map]
    exact h2
  · intro k x hx
    have hk : k < a.length := by
      by_contra hn
      rw [List.getElem?_eq_none (by omega)] at hx
      exact absurd hx (by simp)
    have hk' : k < (pr_src a th m acks).iters.length := by
      unfold pr_src
      simp only [h2]
      exact hk
    have hit : (pr_src a th m acks).iters[k]? = some (pr_src a th m acks).iters[k] :=
      List.getElem?_eq_getElem hk'
    have hmod := moduleAfter_eq_lastAck a th m acks k _ hit
    have hit' := hit
    unfold pr_src at hit'
    obtain ⟨x', hx', hs⟩ := loop_iterSpec th a 0 _ acks k _ hit'
    rw [hx] at hx'
    simp only [Option.some.injEq] at hx'
    subst hx'
    have hne : ((pr_src a th m acks).iters[k]).forwarded ≠ none :=
      h3 _ (List.getElem_mem hk')
    have h9 := hs.2.2.2.2.2.2.2.2
    rw [hfe, List.getElem?_map, hit]
    simp only [Option.map_some']
    cases hf : ((pr_src a th m acks).iters[k]).forwarded with
    | none => exact absurd hf hne
    | some y =>
      have hy := h9 y hf
      have hidx := hs.1
      simp only [Nat.zero_add] at hidx
      rw [← hmod]
      simp only [Option.getD_some, Option.some.injEq, Prod.mk.injEq]
      exact ⟨hidx, hy⟩
  · unfold pr_src
    simp only [h7, List.range_eq_range']
  · intro it hit v hv
    exact loop_requests th a 0 _ acks it hit v ((mem_events_request it v).mp hv)
  · unfold Run.requests
    simp only [hfin, if_true]
  · intro v hv
    unfold elementRequests at hv
    obtain ⟨it, hit, hv'⟩ := List.mem_filterMap.mp hv
    exact loop_requests th a 0 _ acks it hit v hv'

end PrSrc

namespace PrSrc

/-- C1 refuted as stated: on input -5, 5 with threshold 0 and initial module
1, the request for variant 2 answered by 3, the second value forwarded is the
-4 that the variant 1 transform computed, while the last acknowledgment is 3. -/
theorem ack_causality_counterexample : ¬ AckCausality (pr_src [-5, 5] 0 1 [3]) := by
  intro h
  have h' := h
    staleIter
    (by decide) (by decide) 1 rfl
  revert h'
  decide

/-- Instance of C1 as amended: input -5, 5, 5, the first request for variant 2
answered by the stale 1, the second by 2. -/
theorem ack_causality_for_variant_acks_witness :
    (∀ w ∈ [(1 : Int), 2], w = 1 ∨ w = 2) ∧ AckCausality (pr_src [-5, 5, 5] 0 1 [1, 2]) :=
  ⟨by decide, ack_causality_for_variant_acks [-5, 5, 5] 0 1 [1, 2] (by decide)⟩

/-- Instance of C2: the single element 5 with threshold 0, module 1 and no
acknowledgment to come; the first iteration exists and writes request 2. -/
theorem request_only_on_mismatch_witness :
    ([5] : List Int)[0]? = some 5 ∧ Served 0 1 (([5] : List Int).take 0) [] = true ∧
    ∃ it, (pr_src [5] 0 1 []).iters[0]? = some it ∧ it.index = 0 ∧ it.readdata = 5 ∧
      it.request =
        (if lastAck 1 ((pr_src [5] 0 1 []).iters.take 0) ≠ required 0 5
         then some (required 0 5) else none) ∧
      (Event.request (required 0 5) ∈ it.events ↔
        lastAck 1 ((pr_src [5] 0 1 []).iters.take 0) ≠ required 0 5) ∧
      (lastAck 1 ((pr_src [5] 0 1 []).iters.take 0) = required 0 5 →
        it.request = none ∧ it.ack = none ∧
        ∀ v, Event.request v ∉ it.events ∧ Event.ackRead v ∉ it.events) :=
  ⟨by decide, by decide, request_only_on_mismatch [5] 0 1 [] 0 5 (by decide) (by decide)⟩

/-- Instance of C4 as amended: -5, 5 is forwarded as -4, 7. -/
theorem per_index_forwarded_value_witness :
    (∀ x ∈ [(-5 : Int), 5], LONG_MIN ≤ x ∧ x + 2 ≤ LONG_MAX) ∧
    Acknowledged (pr_src [-5, 5] 0 1 [2]) ∧
    (pr_src [-5, 5] 0 1 [2]).forwardedValues =
      [(-5 : Int), 5].map (fun x => if x < 0 then x + 1 else x + 2) :=
  ⟨by decide, by unfold Acknowledged; decide,
    per_index_forwarded_value [-5, 5] 0 1 [2] (by decide) (by unfold Acknowledged; decide)⟩

/-- C8 refuted as stated: on input -5, 5, 5 with threshold 0 and initial
module 1, the request for variant 2 answered by 3, the producer still
forwards a value for that element. -/
theorem stale_ack_counterexample : ¬ StaleAckFatal (pr_src [-5, 5, 5] 0 1 [3, 2]) := by
  intro h
  have h' := h 1
    staleIter
    2 3 (by decide) rfl rfl (by decide) 2
    { index := 2, readdata := 5, moduleBefore := 3, request := some 2, ack := some 2,
      transformed := some 2, moduleAfter := 2, forwarded := some 7, writtenBy := some 2 }
    (by decide) (by decide)
  revert h'
  decide

/-- Instance of C8 as amended: the request for 2 answered by 3, the held -4 is
forwarded and the third element is processed. -/
theorem stale_ack_forwards_held_value_witness :
    (pr_src [-5, 5, 5] 0 1 [3, 2]).iters[1]? =
      some staleIter ∧
    staleIter.request = some 2 ∧ staleIter.ack = some 3 ∧ (3 : Int) ≠ 2 ∧
    staleIter.transformed = none ∧ staleIter.moduleAfter = 3 ∧
    staleIter.forwarded =
      some (lastForwarded 0 ((pr_src [-5, 5, 5] 0 1 [3, 2]).iters.take 1)) ∧
    (1 + 1 < ([-5, 5, 5] : List Int).length →
      1 + 1 < (pr_src [-5, 5, 5] 0 1 [3, 2]).iters.length) :=
  ⟨by decide, rfl, rfl, by decide,
    stale_ack_forwards_held_value [-5, 5, 5] 0 1 [3, 2] 1 staleIter 2 3 (by decide) rfl rfl
      (by decide)⟩

/-- Instance of C9: three elements with one switch and the one acknowledgment
that is read. -/
theorem end_of_stream_sentinel_witness :
    Served 0 1 [-5, 5, 5] [2] = true ∧
    (pr_src [-5, 5, 5] 0 1 [2]).finished = true ∧
    (pr_src [-5, 5, 5] 0 1 [2]).iters.map (fun it => it.readdata) = [-5, 5, 5] ∧
    (pr_src [-5, 5, 5] 0 1 [2]).iters.map (fun it => it.index) =
      List.range ([-5, 5, 5] : List Int).length ∧
    (pr_src [-5, 5, 5] 0 1 [2]).forwardedValues.length = ([-5, 5, 5] : List Int).length ∧
    (forwardEvents (pr_src [-5, 5, 5] 0 1 [2]).events).length =
      ([-5, 5, 5] : List Int).length ∧
    (∀ k x, ([-5, 5, 5] : List Int)[k]? = some x →
      (forwardEvents (pr_src [-5, 5, 5] 0 1 [2]).events)[k]? =
        some (k,
          if lastAck 1 ((pr_src [-5, 5, 5] 0 1 [2]).iters.take (k + 1)) = required 0 x
          then wrapLong (x + required 0 x)
          else lastForwarded 0 ((pr_src [-5, 5, 5] 0 1 [2]).iters.take k))) ∧
    (eventsOf (pr_src [-5, 5, 5] 0 1 [2]).iters).filterMap Event.forwardIndex =
      List.range ([-5, 5, 5] : List Int).length ∧
    (pr_src [-5, 5, 5] 0 1 [2]).events =
      eventsOf (pr_src [-5, 5, 5] 0 1 [2]).iters ++ [Event.request 0] ∧
    (∀ it ∈ (pr_src [-5, 5, 5] 0 1 [2]).iters, ∀ v, Event.request v ∈ it.events →
      v = 1 ∨ v = 2) ∧
    (pr_src [-5, 5, 5] 0 1 [2]).requests =
      elementRequests (pr_src [-5, 5, 5] 0 1 [2]).iters ++ [0] ∧
    (∀ v ∈ elementRequests (pr_src [-5, 5, 5] 0 1 [2]).iters, v = 1 ∨ v = 2) :=
  ⟨by decide, end_of_stream_sentinel [-5, 5, 5] 0 1 [2] (by decide)⟩

end PrSrc

namespace Host

/-- C3: the switch step of the controller. In a state whose `current_module`
names a variant, on a request `v` in {1,2} that differs from it, the
controller stops the variant `current_module` names, waits for the sink event
to finish, reads the checkpoint `c` from `work_status[0]`, starts variant `v`
with resume offset `c`, waits until the new sink event runs and sends the
acknowledgment `v` (re-arming the request monitor just before); afterwards
`current_module` is `v`. -/
theorem switch_step (st : Ctrl) (v : Int) (c : Nat) (hv : v = 1 ∨ v = 2)
    (hcm : st.current_module = 1 ∨ st.current_module = 2) (_hne : v ≠ st.current_module) :
    (step st v c).actions =
      [Action.stop st.current_module, Action.waitSink, Action.readCheckpoint c,
        Action.startSink v c, Action.waitRunning, Action.resetRequestMonitor, Action.ack v] ∧
    (step st v c).actions.filter (fun a => decide (a ≠ Action.resetRequestMonitor)) =
      [Action.stop st.current_module, Action.waitSink, Action.readCheckpoint c,
        Action.startSink v c, Action.waitRunning, Action.ack v] ∧
    (step st v c).hung = false ∧
    (step st v c).state.current_module = v ∧
    (step st v c).state.ev_sink = { variant := v, resume := c, status := Status.running } := by
  rw [step_known st v c hv hcm]
  refine ⟨rfl, ?_, rfl, rfl, rfl⟩
  simp [List.filter]

/-- Instance of C3: the initial state observes a request for variant 2 with
checkpoint 4. -/
theorem switch_step_witness :
    ((2 : Int) = 1 ∨ (2 : Int) = 2) ∧ (init.current_module = 1 ∨ init.current_module = 2) ∧
    (2 : Int) ≠ init.current_module ∧
    (step init 2 4).actions =
      [Action.stop init.current_module, Action.waitSink, Action.readCheckpoint 4,
        Action.startSink 2 4, Action.waitRunning, Action.resetRequestMonitor, Action.ack 2] ∧
    (step init 2 4).actions.filter (fun a => decide (a ≠ Action.resetRequestMonitor)) =
      [Action.stop init.current_module, Action.waitSink, Action.readCheckpoint 4,
        Action.startSink 2 4, Action.waitRunning, Action.ack 2] ∧
    (step init 2 4).hung = false ∧
    (step init 2 4).state.current_module = 2 ∧
    (step init 2 4).state.ev_sink = { variant := 2, resume := 4, status := Status.running } :=
  ⟨by decide, by decide, by decide,
    switch_step init 2 4 (by decide) (by decide) (by decide)⟩

/-- C5: single active variant. From the initial state (`current_module = 1`,
`pr_sink1` started at offset 0), over every finite sequence of observed
requests 1 or 2 (0, the idle value, is allowed too), the loop never hangs,
`current_module` equals the variant most recently installed on slot 1, and
the slot accepts all actions: a kernel is started only after the installed
one was sent its own stop and its event was awaited. -/
theorem single_active_variant (obs : List (Int × Nat))
    (h : ∀ o ∈ obs, o.1 = 0 ∨ o.1 = 1 ∨ o.1 = 2) :
    (runController init obs).hung = false ∧
    (runController init obs).state.current_module =
      (runController init obs).state.ev_sink.variant ∧
    lastInstalled (Action.startSink 1 0 :: (runController init obs).actions) =
      some (runController init obs).state.current_module ∧
    Slot.run Slot.idle (Action.startSink 1 0 :: (runController init obs).actions) =
      some (Slot.running (runController init obs).state.current_module) := by
  obtain ⟨h1, -, h3, h4, h5⟩ := runController_invariant obs init h (Or.inl rfl) rfl
  refine ⟨h1, h3, ?_, ?_⟩
  · simpa [lastInstalled, installedAfter, init] using h4
  · simpa [Slot.run, Slot.next, init] using h5

/-- Instance of C5: requests 2, 0, 1 with checkpoints 3, 3, 7. -/
theorem single_active_variant_witness :
    (∀ o ∈ [((2 : Int), 3), (0, 3), (1, 7)], o.1 = 0 ∨ o.1 = 1 ∨ o.1 = 2) ∧
    (runController init [(2, 3), (0, 3), (1, 7)]).hung = false ∧
    (runController init [(2, 3), (0, 3), (1, 7)]).state.current_module =
      (runController init [(2, 3), (0, 3), (1, 7)]).state.ev_sink.variant ∧
    lastInstalled (Action.startSink 1 0 :: (runController init [(2, 3), (0, 3), (1, 7)]).actions) =
      some (runController init [(2, 3), (0, 3), (1, 7)]).state.current_module ∧
    Slot.run Slot.idle
        (Action.startSink 1 0 :: (runController init [(2, 3), (0, 3), (1, 7)]).actions) =
      some (Slot.running (runController init [(2, 3), (0, 3), (1, 7)]).state.current_module) :=
  ⟨by decide, single_active_variant [(2, 3), (0, 3), (1, 7)] (by decide)⟩

/-- C6 refuted as stated: in the initial state a request for variant 1, the
active one, makes the controller stop `pr_sink1` and start it again. -/
theorem idempotence_counterexample : ¬ IdempotenceClaim init 1 4 := by
  intro h
  have h' := (h (by decide) (by decide)).2.1 1
  revert h'
  decide

/-- C6 (as amended): when the observed request equals `current_module` (1 or
2) the controller runs the same cycle as for a switch: it stops the active
variant, waits for it, reads the checkpoint `c`, starts the same variant
again at offset `c`, waits until it runs, and sends the acknowledgment;
`current_module` is unchanged. -/
theorem same_variant_restarts (st : Ctrl) (r : Int) (c : Nat)
    (hcm : st.current_module = 1 ∨ st.current_module = 2) (hr : r = st.current_module) :
    (step st r c).actions =
      [Action.stop r, Action.waitSink, Action.readCheckpoint c, Action.startSink r c,
        Action.waitRunning, Action.resetRequestMonitor, Action.ack r] ∧
    (step st r c).hung = false ∧
    (step st r c).state.current_module = st.current_module ∧
    (step st r c).state.ev_sink = { variant := r, resume := c, status := Status.running } := by
  subst hr
  rw [step_known st st.current_module c hcm hcm]
  exact ⟨rfl, rfl, rfl, rfl⟩

/-- Instance of C6 as amended: the initial state observes a request for
variant 1. -/
theorem same_variant_restarts_witness :
    (init.current_module = 1 ∨ init.current_module = 2) ∧ (1 : Int) = init.current_module ∧
    (step init 1 4).actions =
      [Action.stop 1, Action.waitSink, Action.readCheckpoint 4, Action.startSink 1 4,
        Action.waitRunning, Action.resetRequestMonitor, Action.ack 1] ∧
    (step init 1 4).hung = false ∧
    (step init 1 4).state.current_module = init.current_module ∧
    (step init 1 4).state.ev_sink = { variant := 1, resume := 4, status := Status.running } :=
  ⟨by decide, by decide, same_variant_restarts init 1 4 (by decide) (by decide)⟩

/-- C7 refuted as stated: in the initial state a request for the unknown
variant 5 makes the controller send the stop to `pr_sink1`. -/
theorem unknown_variant_counterexample : ¬ UnknownVariantClaim init 5 0 := by
  intro h
  have h' := (h (by decide) (by decide) (by decide) (by decide)).1 1
  revert h'
  decide

/-- C7 (as amended): with `current_module` in {1,2}, on a request id that is
neither 0, 1 nor 2 the controller sends the stop to the active variant, waits
for its event and reads the checkpoint, installs nothing, sends no
acknowledgment and leaves `current_module` unchanged; the pass does not end,
the sink event it polls is complete and stays so. -/
theorem unknown_variant_stops_active (st : Ctrl) (r : Int) (c : Nat)
    (hcm : st.current_module = 1 ∨ st.current_module = 2)
    (h0 : r ≠ 0) (h1 : r ≠ 1) (h2 : r ≠ 2) :
    (step st r c).actions =
      [Action.stop st.current_module, Action.waitSink, Action.readCheckpoint c,
        Action.waitRunning] ∧
    (step st r c).hung = true ∧
    (step st r c).state.current_module = st.current_module ∧
    (step st r c).state.ev_sink = { st.ev_sink with status := Status.complete } := by
  rw [step_unknown st r c h0 h1 h2 hcm]
  exact ⟨rfl, rfl, rfl, rfl⟩

/-- Instance of C7 as amended: the initial state observes a request for
variant 5. -/
theorem unknown_variant_stops_active_witness :
    (init.current_module = 1 ∨ init.current_module = 2) ∧
    (5 : Int) ≠ 0 ∧ (5 : Int) ≠ 1 ∧ (5 : Int) ≠ 2 ∧
    (step init 5 0).actions =
      [Action.stop init.current_module, Action.waitSink, Action.readCheckpoint 0,
        Action.waitRunning] ∧
    (step init 5 0).hung = true ∧
    (step init 5 0).state.current_module = init.current_module ∧
    (step init 5 0).state.ev_sink = { init.ev_sink with status := Status.complete } :=
  ⟨by decide, by decide, by decide, by decide,
    unknown_variant_stops_active init 5 0 (by decide) (by decide) (by decide) (by decide)⟩

/-- C10 refuted as stated: on the fixture, with every request acknowledged as
asked, the producer does write requests for variant 2. -/
theorem fixture_counterexample : ¬ FixtureClaim [2, 1, 2, 1, 2, 1, 2, 1, 2, 1] := by
  intro h
  have h' := (h (by unfold PrSrc.Acknowledged; decide)).2
  revert h'
  decide

/-- C10 (as amended): on the fixture (ten elements 1, -1, 1, ..., threshold 0,
initial module 1), with every request acknowledged as asked, the run starts
on variant 1 and the producer writes a request at every element, for variant
2 at even indices and variant 1 at odd ones, then the closing 0. -/
theorem fixture_requests_alternate (acks : List Int)
    (h : PrSrc.Acknowledged (fixtureRun acks)) :
    init.current_module = 1 ∧
    (fixtureRun acks).requests = [2, 1, 2, 1, 2, 1, 2, 1, 2, 1, 0] ∧
    (fixtureRun acks).forwardedValues = [3, 0, 3, 0, 3, 0, 3, 0, 3, 0] := by
  unfold PrSrc.Acknowledged fixtureRun PrSrc.pr_src at h
  unfold PrSrc.Run.requests PrSrc.Run.forwardedValues fixtureRun PrSrc.pr_src
  obtain ⟨h1, h2, h3⟩ := PrSrc.loop_acknowledged threshold src_mem 0 _ acks h
  simp only at h1 h2 h3 ⊢
  refine ⟨rfl, ?_, ?_⟩
  · simp only [h1, if_true, h3]; decide
  · rw [h2]; decide

/-- Instance of C10 as amended: the fixture with the ten acknowledgments the
controller sends. -/
theorem fixture_requests_alternate_witness :
    PrSrc.Acknowledged (fixtureRun [2, 1, 2, 1, 2, 1, 2, 1, 2, 1]) ∧
    init.current_module = 1 ∧
    (fixtureRun [2, 1, 2, 1, 2, 1, 2, 1, 2, 1]).requests = [2, 1, 2, 1, 2, 1, 2, 1, 2, 1, 0] ∧
    (fixtureRun [2, 1, 2, 1, 2, 1, 2, 1, 2, 1]).forwardedValues =
      [3, 0, 3, 0, 3, 0, 3, 0, 3, 0] :=
  ⟨by unfold PrSrc.Acknowledged; decide,
    fixture_requests_alternate [2, 1, 2, 1, 2, 1, 2, 1, 2, 1]
      (by unfold PrSrc.Acknowledged; decide)⟩

/-- C4 refuted as stated: for the single element 5 with threshold 0, the
request for variant 2 acknowledged, the producer forwards 7 where the host
check expects 8. -/
theorem per_index_counterexample : ¬ PerIndexClaim [5] 0 1 [2] := by
  intro h
  have h' := h (by unfold PrSrc.Acknowledged; decide)
  revert h'
  decide

end Host
